import Mathlib

/-!
# Verification of the chunking-and-pipeline engine of `ollama-batch-processor`

Shallow embedding of the core of `src/Translator.py`:

* `TextChunker.chunk_text` — the boundary-aware text splitter,
* `OllamaProcessor.deduplicate_paragraphs` — paragraph deduplication,
* `OllamaProcessor.process_with_llm` — the generation-gateway wrapper,
* `OllamaProcessor.execute_translation` — the translation stage executor,
* `OllamaProcessor.process_pipeline` — the pipeline orchestrator.

Python strings are modelled as `List Char` and string indices as `Nat`
(with `Int` where Python's negative-index conventions matter).  The external
Ollama service, the filesystem and the GUI signals are modelled as explicit
parameters and result fields: the outcome of each generation call is an
oracle argument, emitted signals are collected into result lists, and the
cooperative `is_running` flag is an oracle giving the value observed at each
check point.
-/

namespace OllamaBatch

/-- The whitespace characters recognised by Python's `str.strip` and the
regex class `\s` (restricted to the ASCII core; every proof below is
parametric in the exact behaviour of this predicate). -/
def isPySpace (c : Char) : Bool :=
  c = ' ' || c = '\t' || c = '\n' || c = '\r' || c = '\x0b' || c = '\x0c'

/-- Python `str.lstrip()` (no argument: strip leading whitespace). -/
def pyLstrip (s : List Char) : List Char := s.dropWhile isPySpace

/-- Python `str.rstrip()` (no argument: strip trailing whitespace). -/
def pyRstrip (s : List Char) : List Char := (s.reverse.dropWhile isPySpace).reverse

/-- Python `str.strip()`. -/
def pyStrip (s : List Char) : List Char := pyRstrip (pyLstrip s)

/-- Python slice `s[a:b]` for non-negative indices (both endpoints clamp to
the length of the string). -/
def pySlice (s : List Char) (a b : Nat) : List Char := (s.take b).drop a

/-- Python slice `s[-k:]`.  Beware: Python has `-0 == 0`, so for `k = 0` this
slice is `s[0:]`, i.e. all of `s`, not the empty string. -/
def pyTailSlice (s : List Char) (k : Nat) : List Char :=
  if k = 0 then s else s.drop (s.length - k)

/-- Sentence-terminal punctuation: the regex class `[.!?]`. -/
def isTerm (c : Char) : Bool := c = '.' || c = '!' || c = '?'

/-- The characters of the regex class `["»"]` on line 45 (a straight double
quote — listed twice in the source — and a right guillemet). -/
def isCloseQuote (c : Char) : Bool := c = '"' || c = '»'

/-- Length of the maximal whitespace run at the head of `l`: the extent that
a greedy `\s+`/`\s*` consumes. -/
def wsCount : List Char → Nat
  | [] => 0
  | c :: cs => if isPySpace c then wsCount cs + 1 else 0

/-- The `match.end()` positions produced by `re.finditer(r'[.!?]\s+', s)`
(line 40).  A match starts at every index `i` holding terminal punctuation
followed by a whitespace character and ends after the maximal whitespace run;
no match of this pattern can start inside another one (every interior
character of a match is whitespace, never punctuation), so the non-overlapping
left-to-right matches of `finditer` are exactly these. -/
def sentenceMatchEnds (s : List Char) : List Nat :=
  (List.range s.length).filterMap fun i =>
    match s[i]?, s[i+1]? with
    | some c, some d =>
      if isTerm c && isPySpace d then some (i + 1 + wsCount (s.drop (i+1))) else none
    | _, _ => none

/-- The `match.end()` positions produced by `re.finditer(r'[.!?]["»"]\s+', s)`
(line 45), by the same reasoning as `sentenceMatchEnds`. -/
def quoteMatchEnds (s : List Char) : List Nat :=
  (List.range s.length).filterMap fun i =>
    match s[i]?, s[i+1]?, s[i+2]? with
    | some c, some d, some e =>
      if isTerm c && isCloseQuote d && isPySpace e then
        some (i + 2 + wsCount (s.drop (i+2))) else none
    | _, _, _ => none

/-- End offset (relative to the start of `run`) of the backtracking `\s*\n`
suffix of the pattern `\n\s*\n`: one past the last newline of the whitespace
run, when the run contains a newline at all. -/
def lastNewlineEnd (run : List Char) : Option Nat :=
  if '\n' ∈ run then some (run.length - run.reverse.indexOf '\n') else none

/-- Match of `\n\s*\n` anchored at position `i` of `s`: the pattern matches
iff `s[i]` is a newline and the maximal whitespace run following it contains
another newline; the greedy-then-backtracking `\s*\n` makes the match end one
past the last newline of that run.  Returns the `match.end()` position. -/
def paraMatchAt (s : List Char) (i : Nat) : Option Nat :=
  if s[i]? = some '\n' then
    match lastNewlineEnd ((s.drop (i+1)).takeWhile isPySpace) with
    | some k => some (i + 1 + k)
    | none => none
  else none

/-- Left-to-right scan of `re.finditer(r'\n\s*\n', s)` (line 57): try a match
at the current position, resume after its end (matches never overlap),
otherwise advance one character.  `fuel` bounds the scan; `s.length + 1`
steps always suffice because the position strictly increases. -/
def paraScan (s : List Char) : Nat → Nat → List Nat
  | 0, _ => []
  | fuel+1, i =>
    if i < s.length then
      match paraMatchAt s i with
      | some e => e :: paraScan s fuel e
      | none => paraScan s fuel (i+1)
    else []

/-- The `match.end()` positions produced by `re.finditer(r'\n\s*\n', s)`. -/
def paraMatchEnds (s : List Char) : List Nat := paraScan s (s.length + 1) 0

/-- Python `max([b for b in breaks if b <= ce], default=breaks[0])`
(lines 51–52 and 63–64; only ever applied to non-empty `breaks`). -/
def bestBreak (ce : Nat) (breaks : List Nat) : Nat :=
  match breaks.filter (fun b => decide (b ≤ ce)) with
  | [] => breaks.headD 0
  | q :: qs => qs.foldl max q

/-- The start index that Python's `text.rfind(' ', ce - 100, ce)` actually
uses: a negative start is interpreted relative to the end of the string and
then clamped at 0, exactly like a negative slice index. -/
def rfindStart (tl ce : Nat) : Nat :=
  if (ce : Int) - 100 < 0 then (max 0 ((tl : Int) + ((ce : Int) - 100))).toNat
  else ce - 100

/-- Python `text.rfind(' ', a, b)`: the greatest index `j` with
`a ≤ j < min b text.length` and `text[j] = ' '`, or `none` when there is no
such index (Python returns `-1`, which the caller's `> position` test then
rejects). -/
def pyRfindSpace (text : List Char) (a b : Nat) : Option Nat :=
  ((List.range (min b text.length)).filter
    (fun j => decide (a ≤ j) && (text[j]? == some ' '))).getLast?

/-- Lines 39–48: the sentence-boundary candidates for the naive cut `ce` made
from the current `position`: the match-end positions of both sentence-ending
regexes over the search window `text[max(position, ce-200) : ce+100]`,
translated back to document coordinates and kept when strictly after
`position` and at most `ce + 100` — first all plain matches, then all
quote matches, preserving the order in which the code appends them. -/
def sentenceCands (text : List Char) (position ce : Nat) : List Nat :=
  let search_start := max position (ce - 200)
  let search_text := pySlice text search_start (ce + 100)
  ((sentenceMatchEnds search_text).map (search_start + ·) ++
   (quoteMatchEnds search_text).map (search_start + ·)).filter
    (fun p => decide (position < p) && decide (p ≤ ce + 100))

/-- Lines 56–60: the paragraph-break candidates over the same window. -/
def paraCands (text : List Char) (position ce : Nat) : List Nat :=
  let search_start := max position (ce - 200)
  let search_text := pySlice text search_start (ce + 100)
  ((paraMatchEnds search_text).map (search_start + ·)).filter
    (fun p => decide (position < p) && decide (p ≤ ce + 100))

/-- Lines 34–70: adjust the naive cut `ce` to a sentence boundary, else a
paragraph boundary, else one past the nearest preceding space (when that
space lies strictly after `position`), else keep the naive cut. -/
def adjustChunkEnd (text : List Char) (position ce : Nat) : Nat :=
  match sentenceCands text position ce with
  | b :: bs => bestBreak ce (b :: bs)
  | [] =>
    match paraCands text position ce with
    | p :: ps => bestBreak ce (p :: ps)
    | [] =>
      match pyRfindSpace text (rfindStart text.length ce) ce with
      | some j => if position < j then j + 1 else ce
      | none => ce

/-- Lines 32–70: the cut position chosen for the chunk starting at
`position`: the naive cut `min(position + max_chars, text.length)`, boundary
adjusted whenever it falls short of the end of the document. -/
def chooseChunkEnd (text : List Char) (max_chars position : Nat) : Nat :=
  let chunk_end := min (position + max_chars) text.length
  if chunk_end < text.length then adjustChunkEnd text position chunk_end
  else chunk_end

/-- One element of the list returned by `TextChunker.chunk_text`: the tuple
`(chunk_text, overlap_context, is_first_chunk)`. -/
structure Segment where
  text : List Char
  context : List Char
  isFirst : Bool
deriving DecidableEq, Repr

/-- Lines 76–80: the overlap context carried to the next chunk.  The source
computes `chunk_text[-context_size:]` when `len(chunk_text) > context_size`,
which for `context_size = 0` is the whole chunk (Python `-0 == 0`), not the
empty string. -/
def newPrev (overlap : Nat) (chunk_text : List Char) : List Char :=
  let context_size := min overlap chunk_text.length
  if context_size < chunk_text.length then pyTailSlice chunk_text context_size
  else chunk_text

/-- The `while position < text_length` loop of `chunk_text` (lines 31–82),
instrumented to record only the raw pre-trim spans `[position, chunk_end)` it
cuts.  `fuel` bounds the iteration count; `none` means the loop did not
finish within `fuel` iterations (for `max_chars ≥ 1` this never happens with
fuel `text.length`, because every iteration strictly advances `position`). -/
def spanLoop (text : List Char) (max_chars : Nat) : Nat → Nat → Option (List (Nat × Nat))
  | 0, position => if position < text.length then none else some []
  | fuel+1, position =>
    if position < text.length then
      let chunk_end := chooseChunkEnd text max_chars position
      match spanLoop text max_chars fuel chunk_end with
      | some rest => some ((position, chunk_end) :: rest)
      | none => none
    else some []

/-- The `while position < text_length` loop of `chunk_text` (lines 31–82):
cut the next chunk, trim it, emit it with the carried overlap context, update
the context and advance.  Fuel as in `spanLoop`. -/
def chunkLoop (text : List Char) (max_chars overlap : Nat) :
    Nat → Nat → List Char → Option (List Segment)
  | 0, position, _ => if position < text.length then none else some []
  | fuel+1, position, previous_end =>
    if position < text.length then
      let chunk_end := chooseChunkEnd text max_chars position
      let ct := pyStrip (pySlice text position chunk_end)
      match chunkLoop text max_chars overlap fuel chunk_end (newPrev overlap ct) with
      | some rest => some (⟨ct, previous_end, position == 0⟩ :: rest)
      | none => none
    else some []

/-- `TextChunker.chunk_text(text, max_chars, overlap)` (lines 12–84).
`max_chars = -1` is the whole-file sentinel; a document no longer than
`max_chars` is returned as a single untrimmed segment; otherwise the chunking
loop runs (its positions are naturals, faithful for every `max_chars ≥ 0`;
the loop is entered with `max_chars.toNat`).  `none` models the loop failing
to terminate within `text.length` iterations. -/
def chunk_text (text : List Char) (max_chars : Int) (overlap : Nat) : Option (List Segment) :=
  if max_chars = -1 then some [⟨text, [], true⟩]
  else if (text.length : Int) ≤ max_chars then some [⟨text, [], true⟩]
  else chunkLoop text max_chars.toNat overlap text.length 0 []

/-- The raw pre-trim spans cut by `chunk_text`: the single whole-document
span in the two single-segment shortcut cases, the loop's spans otherwise. -/
def chunkSpans (text : List Char) (max_chars : Int) : Option (List (Nat × Nat)) :=
  if max_chars = -1 then some [(0, text.length)]
  else if (text.length : Int) ≤ max_chars then some [(0, text.length)]
  else spanLoop text max_chars.toNat text.length 0

/-- Rebuild the segment list from the raw spans, threading the overlap
context exactly as the loop does. -/
def buildSegs (text : List Char) (overlap : Nat) : List Char → List (Nat × Nat) → List Segment
  | _, [] => []
  | previous_end, (a, b) :: rest =>
    let ct := pyStrip (pySlice text a b)
    ⟨ct, previous_end, a == 0⟩ :: buildSegs text overlap (newPrev overlap ct) rest

/-- `spans` starts at position `p`, each span starts where the previous one
ended, and the last span ends at `tlen`. -/
def contiguousFrom (tlen : Nat) : Nat → List (Nat × Nat) → Bool
  | p, [] => p == tlen
  | p, (a, b) :: rest => (a == p) && contiguousFrom tlen b rest

/-- Every span covers at least one character. -/
def spansStrict (spans : List (Nat × Nat)) : Bool :=
  spans.all fun ab => decide (ab.1 < ab.2)

/-- Every segment after the first carries a preceding context of length at
most `min overlap (previous segment's trimmed length)`. -/
def overlapBoundOk (overlap : Nat) : List Segment → Bool
  | s :: t :: rest =>
    decide (t.context.length ≤ min overlap s.text.length) && overlapBoundOk overlap (t :: rest)
  | _ => true

/-- Python `text.split('\n\n')` (line 229): split on every non-overlapping
occurrence of the two-character separator, scanning left to right (the
two-character lookahead of the scan is written out explicitly). -/
def splitOnNN : List Char → List (List Char)
  | [] => [[]]
  | [c] => [[c]]
  | c :: d :: rest =>
    if c = '\n' ∧ d = '\n' then [] :: splitOnNN rest
    else
      match splitOnNN (d :: rest) with
      | p :: ps => (c :: p) :: ps
      | [] => [[c]]

/-- Does `l` contain the two-character separator `"\n\n"`? -/
def hasNN : List Char → Bool
  | c :: d :: rest => (decide (c = '\n') && decide (d = '\n')) || hasNN (d :: rest)
  | _ => false

/-- Python `s.split()` with no argument: split on maximal whitespace runs,
dropping empty pieces.  Written as a single structural pass (`acc` holds the
characters of the current word in reverse) so that it also evaluates inside
the kernel. -/
def pySplitWsGo : List Char → List Char → List (List Char)
  | acc, [] => if acc = [] then [] else [acc.reverse]
  | acc, c :: rest =>
    if isPySpace c then
      if acc = [] then pySplitWsGo [] rest
      else acc.reverse :: pySplitWsGo [] rest
    else pySplitWsGo (c :: acc) rest

/-- Python `s.split()` with no argument. -/
def pySplitWs (s : List Char) : List (List Char) := pySplitWsGo [] s

/-- Line 238: `' '.join(para_stripped.lower().split())` — the normalised
form used for duplicate detection (`Char.toLower` models `str.lower`). -/
def normalizePara (para_stripped : List Char) : List Char :=
  List.intercalate [' '] (pySplitWs (para_stripped.map Char.toLower))

/-- Lines 233–242: the deduplication fold.  `seen` (first argument) is the
set of normalised forms already retained, modelled as a list queried only by
membership. -/
def dedupLoop : List (List Char) → List (List Char) → List (List Char)
  | _, [] => []
  | seen, para :: rest =>
    let para_stripped := pyStrip para
    if para_stripped = [] then dedupLoop seen rest
    else
      let para_normalized := normalizePara para_stripped
      if para_normalized ∈ seen then dedupLoop seen rest
      else para_stripped :: dedupLoop (para_normalized :: seen) rest

/-- `OllamaProcessor.deduplicate_paragraphs` (lines 227–244). -/
def deduplicate_paragraphs (text : List Char) : List Char :=
  List.intercalate ['\n', '\n'] (dedupLoop [] (splitOnNN text))

/-- The `message` attribute of a structured (non-`dict`) Ollama response:
it may or may not itself have a `content` attribute (line 163). -/
inductive ObjMessage
  | withContent (content : List Char)
  | withoutContent (asString : List Char)
deriving DecidableEq, Repr

/-- The shapes a chat response can take, as distinguished by lines 158–169:
a `dict` (whose `'message'` or `'content'` key may be missing), an object
with a `message` attribute, or anything else (used via `str()`). -/
inductive OllamaResponse
  | dictResp (message : Option (Option (List Char)))
  | objResp (message : ObjMessage)
  | otherResp (asString : List Char)
deriving DecidableEq, Repr

/-- Outcome of the external `client.chat` call for one chunk, classified the
way the `except` chain of `process_with_llm` distinguishes failures. -/
inductive GenOutcome
  | success (response : OllamaResponse)
  | timeoutErr
  | connectionErr (msg : List Char)
  | serviceErr (err : List Char)
  | otherErr (excName excMsg : List Char)
deriving DecidableEq, Repr

/-- The exceptions that can propagate out of the `try` body of
`process_with_llm` (each one derives from Python's `Exception`). -/
inductive PyExc
  | timeoutError
  | connectionError (msg : List Char)
  | responseError (err : List Char)
  | genericError (excName excMsg : List Char)
deriving DecidableEq, Repr

/-- Lines 158–173: normalise the response into a string.  Missing keys on
the `dict` path raise `KeyError`, which the inner handler re-raises as
`Exception("Cannot parse Ollama response: ...")`. -/
def parseResponse (r : OllamaResponse) : Except PyExc (List Char) :=
  match r with
  | .dictResp (some (some content)) => .ok (pyStrip content)
  | .dictResp (some none) =>
    .error (.genericError "Exception".toList "Cannot parse Ollama response".toList)
  | .dictResp none =>
    .error (.genericError "Exception".toList "Cannot parse Ollama response".toList)
  | .objResp (.withContent content) => .ok (pyStrip content)
  | .objResp (.withoutContent s) => .ok (pyStrip s)
  | .otherResp s => .ok (pyStrip s)

/-- Lines 180–189. -/
def unwanted_prefixes : List (List Char) :=
  ["here is the translation:".toList,
   "translation:".toList,
   "here's the translation:".toList,
   "translated text:".toList,
   "here is the complete translation:".toList,
   "complete translation:".toList,
   "here is the processed text:".toList,
   "processed text:".toList]

/-- Lines 191–195: drop the first boilerplate prefix that matches the
lower-cased result (the loop `break`s at the first hit) and re-strip. -/
def stripUnwantedPrefix (result : List Char) : List Char :=
  match unwanted_prefixes.find? (fun p => p.isPrefixOf (result.map Char.toLower)) with
  | some p => pyStrip (result.drop p.length)
  | none => result

/-- The `try` body of `process_with_llm` (lines 143–197) as a fallible
computation: the external call either yields a response to normalise and
clean up, or raises the corresponding exception. -/
def tryBody (outcome : GenOutcome) : Except PyExc (List Char) :=
  match outcome with
  | .success r =>
    match parseResponse r with
    | .ok result => .ok (stripUnwantedPrefix result)
    | .error e => .error e
  | .timeoutErr => .error .timeoutError
  | .connectionErr m => .error (.connectionError m)
  | .serviceErr e => .error (.responseError e)
  | .otherErr n m => .error (.genericError n m)

/-- Result of one `process_with_llm` call: the returned string and the
`processing_error` signals emitted during the call. -/
structure LlmResult where
  result : List Char
  errors : List (List Char)
deriving DecidableEq, Repr

/-- The `except` chain (lines 199–225): each handler emits one error signal
and returns a bracketed placeholder embedding `text[:100]`.  The final
`except Exception` branch catches every exception the earlier branches left,
so no arm of this chain re-raises. -/
def handleExc (text model : List Char) (e : PyExc) : Except PyExc LlmResult :=
  match e with
  | .timeoutError =>
    .ok ⟨"[TIMEOUT ERROR: ".toList ++ text.take 100 ++ "...]".toList,
         ["⏱️ Timeout: Ollama took too long to respond (>2 min). Check if model '".toList ++
            model ++ "' is loaded.".toList]⟩
  | .connectionError m =>
    .ok ⟨"[CONNECTION ERROR: ".toList ++ text.take 100 ++ "...]".toList,
         ["🔌 Connection Error: Cannot connect to Ollama. Is it running?\nDetails: ".toList ++ m]⟩
  | .responseError err =>
    .ok ⟨"[PROCESSING FAILED: ".toList ++ text.take 100 ++ "...]".toList,
         ["❌ Ollama Error: ".toList ++ err]⟩
  | .genericError n m =>
    .ok ⟨"[ERROR: ".toList ++ text.take 100 ++ "...]".toList,
         ["❌ Unexpected Error: ".toList ++ n ++ ": ".toList ++ m]⟩

/-- Lines 143–225 as one fallible computation: run the `try` body, then the
`except` chain on whatever it raised.  An `.error` result here would be an
exception escaping `process_with_llm` to its caller. -/
def tryExcept (text system_prompt user_prompt model : List Char)
    (outcome : GenOutcome) : Except PyExc LlmResult :=
  match tryBody outcome with
  | .ok r => .ok ⟨r, []⟩
  | .error e => handleExc text model e

/-- `OllamaProcessor.process_with_llm` (lines 123–225).  The prompts and the
sampling temperature only parametrise the external call (whose outcome is
the `outcome` argument) and never influence the control flow; the
temperature is therefore not modelled.  The `.error` fallback is the
"an exception escapes" case, proven unreachable below. -/
def process_with_llm (text system_prompt user_prompt model : List Char)
    (outcome : GenOutcome) : LlmResult :=
  match tryExcept text system_prompt user_prompt model outcome with
  | .ok r => r
  | .error _ => ⟨[], []⟩

/-- A prompt template piece: literal text or one of the named `.format`
fields that `execute_translation` supplies. -/
inductive TmplPart
  | lit (s : List Char)
  | srcLang
  | targetLang
  | contextSnippet
  | chunkHole
deriving DecidableEq, Repr

/-- Python `template.format(src_lang=…, target_lang=…, context_snippet=…,
chunk=…)` for a template made of the parts above.  (The code formats the
system templates with only the two language fields; templates are assumed to
reference only the fields their call site supplies, since any other template
makes the Python `.format` call raise.) -/
def formatTmpl (t : List TmplPart) (src tgt ctx chunk : List Char) : List Char :=
  (t.map fun part =>
    match part with
    | .lit s => s
    | .srcLang => src
    | .targetLang => tgt
    | .contextSnippet => ctx
    | .chunkHole => chunk).flatten

/-- The four prompt templates of the translation operation's config. -/
structure TransPrompts where
  system_first : List TmplPart
  user_first : List TmplPart
  system_continuation : List TmplPart
  user_continuation : List TmplPart
deriving DecidableEq, Repr

/-- The settings of one translation stage (`op_settings` together with its
`config`), with the defaults of lines 250–256 already resolved.  The
`step_name` field is the config's `step_name` entry (the source falls back
to `'translated'` for the numbered artifact and `'translation'` for the
progress snapshot only when the entry is missing; the config is treated as
complete, already-parsed input). -/
structure TransSettings where
  model : List Char
  src_lang : List Char
  target_lang : List Char
  chunk_size : Int
  overlap : Nat
  dedup : Bool
  prompts : TransPrompts
  step_name : List Char
deriving DecidableEq, Repr

/-- Lines 280–299: build the (system, user) prompt pair for one chunk.  The
pair is a function of the chunker's segment and the stage settings alone:
continuation prompts when the segment is not the first and carries a
non-empty context (of which only the last ≤150 characters are passed),
first-chunk prompts otherwise. -/
def buildTransPrompts (s : TransSettings) (seg : Segment) : List Char × List Char :=
  if !seg.isFirst && !seg.context.isEmpty then
    let context_snippet :=
      if seg.context.length > 150 then pyTailSlice seg.context 150 else seg.context
    (formatTmpl s.prompts.system_continuation s.src_lang s.target_lang [] [],
     formatTmpl s.prompts.user_continuation s.src_lang s.target_lang context_snippet seg.text)
  else
    (formatTmpl s.prompts.system_first s.src_lang s.target_lang [] [],
     formatTmpl s.prompts.user_first s.src_lang s.target_lang [] seg.text)

/-- Observable events accumulated while a translation stage runs: the
translated parts, the prompt pairs sent to the gateway, the emitted error
signals, the persisted progress snapshots `(step name, content)` and the
emitted progress events `(current, total)`. -/
structure TransAcc where
  parts : List (List Char)
  prompts : List (List Char × List Char)
  errors : List (List Char)
  saved : List (List Char × List Char)
  progress : List (Nat × Nat)
deriving DecidableEq, Repr

/-- The chunk loop of `execute_translation` (lines 273–320).  `schedule n`
is the value of `self.is_running` observed at the `n`-th cooperative check
of the run (the flag lives on the processor object and is cleared externally
by `stop_processing`); `ctr` counts the checks made so far; `oracle i` is
the outcome of the generation call for chunk `i`.  The `last_translation`
variable of lines 271/313–314 is written but never read and is not
modelled; the `await asyncio.sleep` is a pure yield. -/
def transLoop (s : TransSettings) (oracle : Nat → GenOutcome) (schedule : Nat → Bool)
    (total : Nat) : List Segment → Nat → Nat → TransAcc → TransAcc × Nat
  | [], _, ctr, acc => (acc, ctr)
  | seg :: rest, i, ctr, acc =>
    if schedule ctr then
      let pr := buildTransPrompts s seg
      let lr := process_with_llm seg.text pr.1 pr.2 s.model (oracle i)
      let parts := acc.parts ++ [lr.result]
      let current := List.intercalate ['\n', '\n'] parts
      transLoop s oracle schedule total rest (i+1) (ctr+1)
        { parts := parts
          prompts := acc.prompts ++ [pr]
          errors := acc.errors ++ lr.errors
          saved := acc.saved ++ [(s.step_name ++ "_progress".toList, current)]
          progress := acc.progress ++ [(i+1, total)] }
    else (acc, ctr + 1)

/-- What one `execute_translation` call produces and emits. -/
structure TransResult where
  output : List Char
  prompts : List (List Char × List Char)
  errors : List (List Char)
  saved : List (List Char × List Char)
  progress : List (Nat × Nat)
deriving DecidableEq, Repr

/-- `OllamaProcessor.execute_translation` (lines 246–328): chunk the input,
translate chunk by chunk (stopping early when the running flag reads false),
join with blank lines and deduplicate when enabled.  `none` propagates a
non-terminating chunker. -/
def execute_translation (s : TransSettings) (oracle : Nat → GenOutcome)
    (schedule : Nat → Bool) (text : List Char) (ctr : Nat) :
    Option (TransResult × Nat) :=
  match chunk_text text s.chunk_size s.overlap with
  | none => none
  | some chunks =>
    if chunks.length = 0 then some (⟨text, [], [], [], []⟩, ctr)
    else
      let r := transLoop s oracle schedule chunks.length chunks 0 ctr ⟨[], [], [], [], []⟩
      let result := List.intercalate ['\n', '\n'] r.1.parts
      let result := if s.dedup then deduplicate_paragraphs result else result
      some (⟨result, r.1.prompts, r.1.errors, r.1.saved, r.1.progress⟩, r.2)

/-- Two-digit step number: Python `f"{n:02d}"`. -/
def stepNum (n : Nat) : List Char :=
  if n < 10 then '0' :: Nat.toDigits 10 n else Nat.toDigits 10 n

/-- Artifacts, prompts and errors accumulated across pipeline stages. -/
structure PipeAcc where
  saved : List (List Char × List Char)
  prompts : List (List Char × List Char)
  errors : List (List Char)
deriving DecidableEq, Repr

/-- The observable outcome of one `process_pipeline` run: every persisted
step artifact `(name, content)` in order, every prompt pair issued, every
error signal, the final output write (if reached) and the value of the
running flag after return. -/
structure PipeResult where
  saved : List (List Char × List Char)
  prompts : List (List Char × List Char)
  errors : List (List Char)
  finalWrite : Option (List Char)
  runningAfter : Bool
deriving DecidableEq, Repr

/-- The stage loop of `process_pipeline` (lines 513–548) for a pipeline of
translation stages: check the running flag before each stage, run the stage,
persist the numbered step artifact `f"{step_counter:02d}_{step_name}"` with
the stage's (possibly partial) result, and thread the evolving text. -/
def stageLoop (oracles : Nat → Nat → GenOutcome) (schedule : Nat → Bool) :
    List TransSettings → Nat → Nat → Nat → List Char → PipeAcc →
    Option (List Char × PipeAcc × Nat)
  | [], _, _, ctr, text, acc => some (text, acc, ctr)
  | st :: rest, k, step_counter, ctr, text, acc =>
    if schedule ctr then
      match execute_translation st (oracles k) schedule text (ctr + 1) with
      | none => none
      | some (tr, ctr') =>
        stageLoop oracles schedule rest (k+1) (step_counter+1) ctr' tr.output
          { saved := acc.saved ++ tr.saved ++
              [(stepNum step_counter ++ ['_'] ++ st.step_name, tr.output)]
            prompts := acc.prompts ++ tr.prompts
            errors := acc.errors ++ tr.errors }
    else some (text, acc, ctr + 1)

/-- `OllamaProcessor.process_pipeline` (lines 475–560) for a pipeline of
translation stages.  `alreadyRunning` is the flag value at entry (the guard
of line 477 returns without touching the other run's flag); `conn` is the
outcome of the connection probe; `readRes` of reading the input file;
`schedule n` the flag value observed at the `n`-th cooperative check after
the run has started.  Every return path except the guard clears the flag
(lines 493/497/508/560). -/
def process_pipeline (alreadyRunning : Bool) (conn : Except (List Char) Unit)
    (readRes : Except (List Char) (List Char)) (stages : List TransSettings)
    (oracles : Nat → Nat → GenOutcome) (schedule : Nat → Bool) :
    Option PipeResult :=
  if alreadyRunning then
    some ⟨[], [], ["A process is already running.".toList], none, true⟩
  else
    match conn with
    | .error msg => some ⟨[], [], [msg], none, false⟩
    | .ok _ =>
      match readRes with
      | .error msg => some ⟨[], [], [msg], none, false⟩
      | .ok text =>
        match stageLoop oracles schedule stages 0 1 0 text ⟨[], [], []⟩ with
        | none => none
        | some (text', acc, ctr) =>
          if schedule ctr then some ⟨acc.saved, acc.prompts, acc.errors, some text', false⟩
          else some ⟨acc.saved, acc.prompts, acc.errors, none, false⟩

/-! ## Bounds on the boundary-candidate positions -/

theorem wsCount_le (l : List Char) : wsCount l ≤ l.length := by
  induction l with
  | nil => simp [wsCount]
  | cons c cs ih =>
    simp only [wsCount, List.length_cons]
    split <;> omega

theorem sentenceMatchEnds_le {s : List Char} {e : Nat} (h : e ∈ sentenceMatchEnds s) :
    e ≤ s.length := by
  simp only [sentenceMatchEnds, List.mem_filterMap, List.mem_range] at h
  obtain ⟨i, -, hi⟩ := h
  split at hi
  case h_1 c d _ hd =>
    split at hi
    · obtain ⟨hlt, -⟩ := List.getElem?_eq_some.mp hd
      have h2 := wsCount_le (s.drop (i+1))
      rw [List.length_drop] at h2
      cases hi
      omega
    · cases hi
  case h_2 => cases hi

theorem quoteMatchEnds_le {s : List Char} {e : Nat} (h : e ∈ quoteMatchEnds s) :
    e ≤ s.length := by
  simp only [quoteMatchEnds, List.mem_filterMap, List.mem_range] at h
  obtain ⟨i, -, hi⟩ := h
  split at hi
  case h_1 c d e' _ _ he =>
    split at hi
    · obtain ⟨hlt, -⟩ := List.getElem?_eq_some.mp he
      have h2 := wsCount_le (s.drop (i+2))
      rw [List.length_drop] at h2
      cases hi
      omega
    · cases hi
  case h_2 => cases hi

theorem paraMatchAt_bounds {s : List Char} {i e : Nat} (h : paraMatchAt s i = some e) :
    i < e ∧ e ≤ s.length := by
  unfold paraMatchAt at h
  split at h
  case isTrue hnl =>
    split at h
    case h_1 k hk =>
      have hk' : k ≤ ((s.drop (i+1)).takeWhile isPySpace).length := by
        unfold lastNewlineEnd at hk
        split at hk
        · cases hk; omega
        · cases hk
      have h2 : ((s.drop (i+1)).takeWhile isPySpace).length ≤ (s.drop (i+1)).length :=
        (List.takeWhile_prefix _).length_le
      have h3 : i < s.length := by
        obtain ⟨hlt, -⟩ := List.getElem?_eq_some.mp hnl
        exact hlt
      rw [List.length_drop] at h2
      cases h
      omega
    case h_2 => cases h
  case isFalse => cases h

theorem paraScan_le {s : List Char} :
    ∀ {fuel i e : Nat}, e ∈ paraScan s fuel i → e ≤ s.length := by
  intro fuel
  induction fuel with
  | zero => intro i e h; simp [paraScan] at h
  | succ fuel ih =>
    intro i e h
    unfold paraScan at h
    split at h
    · split at h
      case h_1 e0 he0 =>
        rcases List.mem_cons.mp h with rfl | h'
        · exact (paraMatchAt_bounds he0).2
        · exact ih h'
      case h_2 => exact ih h
    · simp at h

theorem foldl_max_mem (q : Nat) (qs : List Nat) : qs.foldl max q ∈ q :: qs := by
  induction qs generalizing q with
  | nil => simp
  | cons x xs ih =>
    simp only [List.foldl_cons]
    rcases List.mem_cons.mp (ih (max q x)) with h | h
    · rcases max_choice q x with hm | hm <;> rw [h, hm] <;> simp
    · simp [h]

theorem le_foldl_max (q : Nat) (qs : List Nat) :
    q ≤ qs.foldl max q ∧ ∀ x ∈ qs, x ≤ qs.foldl max q := by
  induction qs generalizing q with
  | nil => simp
  | cons y ys ih =>
    simp only [List.foldl_cons]
    obtain ⟨h1, h2⟩ := ih (max q y)
    refine ⟨le_trans (le_max_left q y) h1, ?_⟩
    intro x hx
    rcases List.mem_cons.mp hx with rfl | hx2
    · exact le_trans (le_max_right q x) h1
    · exact h2 x hx2

theorem bestBreak_mem {ce : Nat} {breaks : List Nat} (h : breaks ≠ []) :
    bestBreak ce breaks ∈ breaks := by
  unfold bestBreak
  split
  case h_1 =>
    cases breaks with
    | nil => exact absurd rfl h
    | cons b bs => simp [List.headD]
  case h_2 q qs hf =>
    have hm : qs.foldl Nat.max q ∈ q :: qs := foldl_max_mem q qs
    have hsub : q :: qs ⊆ breaks := by
      rw [← hf]; exact List.filter_subset' breaks
    exact hsub hm

theorem pySlice_length (s : List Char) (a b : Nat) :
    (pySlice s a b).length = min b s.length - a := by
  simp [pySlice, List.length_drop, List.length_take]

theorem sentenceCands_prop {text : List Char} {position ce p : Nat}
    (hpos : position ≤ text.length) (hce : ce ≤ text.length)
    (h : p ∈ sentenceCands text position ce) : position < p ∧ p ≤ text.length := by
  unfold sentenceCands at h
  rw [List.mem_filter] at h
  obtain ⟨hmem, hcond⟩ := h
  simp only [Bool.and_eq_true, decide_eq_true_eq] at hcond
  refine ⟨hcond.1, ?_⟩
  have hss : max position (ce - 200) ≤ text.length := by omega
  rcases List.mem_append.mp hmem with hm | hm
  · obtain ⟨e, he, rfl⟩ := List.mem_map.mp hm
    have hle := sentenceMatchEnds_le he
    rw [pySlice_length] at hle
    omega
  · obtain ⟨e, he, rfl⟩ := List.mem_map.mp hm
    have hle := quoteMatchEnds_le he
    rw [pySlice_length] at hle
    omega

theorem paraCands_prop {text : List Char} {position ce p : Nat}
    (hpos : position ≤ text.length) (hce : ce ≤ text.length)
    (h : p ∈ paraCands text position ce) : position < p ∧ p ≤ text.length := by
  unfold paraCands at h
  rw [List.mem_filter] at h
  obtain ⟨hmem, hcond⟩ := h
  simp only [Bool.and_eq_true, decide_eq_true_eq] at hcond
  refine ⟨hcond.1, ?_⟩
  have hss : max position (ce - 200) ≤ text.length := by omega
  obtain ⟨e, he, rfl⟩ := List.mem_map.mp hmem
  have hle := paraScan_le he
  rw [pySlice_length] at hle
  omega

theorem pyRfindSpace_prop {text : List Char} {a b j : Nat}
    (h : pyRfindSpace text a b = some j) : a ≤ j ∧ j < min b text.length := by
  unfold pyRfindSpace at h
  have hm := List.mem_of_getLast?_eq_some h
  rw [List.mem_filter] at hm
  obtain ⟨hr, hc⟩ := hm
  simp only [Bool.and_eq_true, decide_eq_true_eq] at hc
  exact ⟨hc.1, List.mem_range.mp hr⟩

/-! ## Progress and bounds of the chosen cut -/

theorem adjustChunkEnd_bounds {text : List Char} {position ce : Nat}
    (hpos : position < ce) (hce : ce ≤ text.length) :
    position < adjustChunkEnd text position ce ∧ adjustChunkEnd text position ce ≤ text.length := by
  unfold adjustChunkEnd
  split
  case h_1 b bs hb =>
    have hmem : bestBreak ce (b :: bs) ∈ sentenceCands text position ce := by
      rw [hb]; exact bestBreak_mem (by simp)
    exact sentenceCands_prop (by omega) hce hmem
  case h_2 hb =>
    split
    case h_1 q qs hq =>
      have hmem : bestBreak ce (q :: qs) ∈ paraCands text position ce := by
        rw [hq]; exact bestBreak_mem (by simp)
      exact paraCands_prop (by omega) hce hmem
    case h_2 hq =>
      split
      case h_1 j hj =>
        have := pyRfindSpace_prop hj
        split
        · omega
        · omega
      case h_2 => omega

theorem chooseChunkEnd_bounds {text : List Char} {max_chars position : Nat}
    (hpos : position < text.length) (hmc : 1 ≤ max_chars) :
    position < chooseChunkEnd text max_chars position ∧
      chooseChunkEnd text max_chars position ≤ text.length := by
  have hce : min (position + max_chars) text.length ≤ text.length := Nat.min_le_right _ _
  by_cases h : min (position + max_chars) text.length < text.length
  · have hb := @adjustChunkEnd_bounds text position (min (position + max_chars) text.length)
      (Nat.lt_min.mpr ⟨by omega, hpos⟩) hce
    simpa [chooseChunkEnd, h] using hb
  · have he : min (position + max_chars) text.length = text.length := by
      rcases Nat.min_le_left (position + max_chars) text.length with _
      omega
    simp only [chooseChunkEnd, h, if_false]
    omega

/-! ## The chunking loop: termination, coverage, and its relation to the
span view -/

theorem spanLoop_spec (text : List Char) (max_chars : Nat) (hmc : 1 ≤ max_chars) :
    ∀ (fuel position : Nat), position ≤ text.length → text.length - position ≤ fuel →
      ∃ sp, spanLoop text max_chars fuel position = some sp ∧
        contiguousFrom text.length position sp = true ∧
        spansStrict sp = true ∧
        (sp.map fun ab => pySlice text ab.1 ab.2).flatten = text.drop position := by
  intro fuel
  induction fuel with
  | zero =>
    intro position hple hfuel
    have hp : position = text.length := by omega
    subst hp
    refine ⟨[], ?_, ?_, ?_, ?_⟩
    · unfold spanLoop; simp
    · simp [contiguousFrom]
    · simp [spansStrict]
    · simp [List.drop_length]
  | succ fuel ih =>
    intro position hple hfuel
    by_cases hpos : position < text.length
    · obtain ⟨hlt, hle⟩ := @chooseChunkEnd_bounds text max_chars position hpos hmc
      obtain ⟨sp, hsp, hcont, hstrict, hflat⟩ :=
        ih (chooseChunkEnd text max_chars position) hle (by omega)
      refine ⟨(position, chooseChunkEnd text max_chars position) :: sp, ?_, ?_, ?_, ?_⟩
      · unfold spanLoop
        rw [if_pos hpos]
        dsimp only
        rw [hsp]
      · simp [contiguousFrom, hcont]
      · simp only [spansStrict, List.all_cons, Bool.and_eq_true, decide_eq_true_eq]
        simp only [spansStrict] at hstrict
        exact ⟨hlt, hstrict⟩
      · simp only [List.map_cons, List.flatten_cons, hflat]
        have h1 : position ≤ (text.take (chooseChunkEnd text max_chars position)).length := by
          rw [List.length_take]; omega
        calc pySlice text position (chooseChunkEnd text max_chars position) ++
              text.drop (chooseChunkEnd text max_chars position)
            = ((text.take (chooseChunkEnd text max_chars position)) ++
                text.drop (chooseChunkEnd text max_chars position)).drop position :=
              (List.drop_append_of_le_length h1).symm
          _ = text.drop position := by rw [List.take_append_drop]
    · have hp : position = text.length := by omega
      subst hp
      refine ⟨[], ?_, ?_, ?_, ?_⟩
      · unfold spanLoop; rw [if_neg hpos]
      · simp [contiguousFrom]
      · simp [spansStrict]
      · simp [List.drop_length]

theorem chunkLoop_eq_spanLoop (text : List Char) (mc ov : Nat) :
    ∀ (fuel position : Nat) (prev : List Char),
      chunkLoop text mc ov fuel position prev =
        (spanLoop text mc fuel position).map (buildSegs text ov prev) := by
  intro fuel
  induction fuel with
  | zero =>
    intro position prev
    unfold chunkLoop spanLoop
    split <;> simp [buildSegs]
  | succ fuel ih =>
    intro position prev
    unfold chunkLoop spanLoop
    by_cases hpos : position < text.length
    · rw [if_pos hpos, if_pos hpos]
      dsimp only
      rw [ih]
      cases hsp : spanLoop text mc fuel (chooseChunkEnd text mc position) with
      | none => simp
      | some sp => simp [buildSegs]
    · rw [if_neg hpos, if_neg hpos]
      simp [buildSegs]

theorem buildSegs_map_text (text : List Char) (ov : Nat) :
    ∀ (sp : List (Nat × Nat)) (prev : List Char),
      (buildSegs text ov prev sp).map Segment.text =
        sp.map fun ab => pyStrip (pySlice text ab.1 ab.2) := by
  intro sp
  induction sp with
  | nil => intro prev; simp [buildSegs]
  | cons ab rest ih =>
    intro prev
    cases ab
    simp [buildSegs, ih]

theorem chunk_text_isSome (text : List Char) (max_chars : Int) (overlap : Nat)
    (h : max_chars = -1 ∨ 1 ≤ max_chars) :
    ∃ segs, chunk_text text max_chars overlap = some segs := by
  unfold chunk_text
  rcases h with rfl | h
  · exact ⟨_, rfl⟩
  · rw [if_neg (by omega)]
    by_cases hlen : (text.length : Int) ≤ max_chars
    · rw [if_pos hlen]; exact ⟨_, rfl⟩
    · rw [if_neg hlen]
      have hmc : 1 ≤ max_chars.toNat := by omega
      obtain ⟨sp, hsp, -, -, -⟩ :=
        spanLoop_spec text max_chars.toNat hmc text.length 0 (by omega) (by omega)
      rw [chunkLoop_eq_spanLoop, hsp]
      exact ⟨_, rfl⟩

theorem chunk_text_ne_nil {text : List Char} {max_chars : Int} {overlap : Nat}
    {segs : List Segment} (hmc : max_chars = -1 ∨ 1 ≤ max_chars)
    (h : chunk_text text max_chars overlap = some segs) : segs ≠ [] := by
  unfold chunk_text at h
  split at h
  · cases h; simp
  · split at h
    case isTrue hlen => cases h; simp
    case isFalse hlen =>
      rcases hmc with rfl | hmc
      · simp at *
      · have hlen0 : 0 < text.length := by omega
        have hmc2 : 1 ≤ max_chars.toNat := by omega
        obtain ⟨sp, hsp, hcont, -, -⟩ :=
          spanLoop_spec text max_chars.toNat hmc2 text.length 0 (by omega) (by omega)
        rw [chunkLoop_eq_spanLoop, hsp] at h
        simp only [Option.map_some'] at h
        injection h with h2
        subst h2
        cases sp with
        | nil =>
          simp only [contiguousFrom, beq_iff_eq] at hcont
          omega
        | cons ab rest =>
          cases ab
          simp [buildSegs]

/-! ## Selection among sentence-boundary candidates -/

theorem bestBreak_spec (ce b : Nat) (bs : List Nat) :
    bestBreak ce (b :: bs) ∈ b :: bs ∧
    ((∃ c ∈ b :: bs, c ≤ ce) → bestBreak ce (b :: bs) ≤ ce ∧
        ∀ c ∈ b :: bs, c ≤ ce → c ≤ bestBreak ce (b :: bs)) ∧
    ((∀ c ∈ b :: bs, ce < c) → bestBreak ce (b :: bs) = b) := by
  cases hf : (b :: bs).filter (fun x => decide (x ≤ ce)) with
  | nil =>
    have hbb : bestBreak ce (b :: bs) = b := by
      unfold bestBreak; rw [hf]; rfl
    refine ⟨by simp [hbb], ?_, fun _ => hbb⟩
    rintro ⟨c, hc, hcle⟩
    exfalso
    have hcf : c ∈ (b :: bs).filter (fun x => decide (x ≤ ce)) :=
      List.mem_filter.mpr ⟨hc, by simpa using hcle⟩
    rw [hf] at hcf
    simp at hcf
  | cons q qs =>
    have hbb : bestBreak ce (b :: bs) = qs.foldl max q := by
      unfold bestBreak; rw [hf]
    have hmQ : qs.foldl max q ∈ q :: qs := foldl_max_mem q qs
    have hmF : qs.foldl max q ∈ (b :: bs).filter (fun x => decide (x ≤ ce)) := by
      rw [hf]; exact hmQ
    have hmem : qs.foldl max q ∈ b :: bs := List.mem_of_mem_filter hmF
    have hle : qs.foldl max q ≤ ce := by
      have := List.of_mem_filter hmF
      simpa using this
    refine ⟨by rw [hbb]; exact hmem, ?_, ?_⟩
    · intro _
      refine ⟨by rw [hbb]; exact hle, ?_⟩
      intro x hx hxle
      have hxf : x ∈ q :: qs := by
        rw [← hf]
        exact List.mem_filter.mpr ⟨hx, by simpa using hxle⟩
      rw [hbb]
      rcases List.mem_cons.mp hxf with rfl | hx2
      · exact (le_foldl_max x qs).1
      · exact (le_foldl_max q qs).2 x hx2
    · intro hall
      exfalso
      have hqf : q ∈ (b :: bs).filter (fun x => decide (x ≤ ce)) := by rw [hf]; simp
      have h1 := List.mem_of_mem_filter hqf
      have h2 := List.of_mem_filter hqf
      simp only [decide_eq_true_eq] at h2
      exact absurd (hall q h1) (by omega)

/-! ## Claim theorems for the chunker -/

/-- **C2**: for every document and every `maxChars ≥ 1` (any overlap), the
raw pre-trim spans cut by `chunk_text` are contiguous — the first starts at
0, each span starts where the previous one ended, the last ends at the end
of the document — so concatenating the spans in output order reconstructs
the document exactly; and whenever the chunking loop actually runs (the
document is longer than `maxChars`), the emitted segment texts are exactly
the per-span whitespace-trimmed slices. -/
theorem c2_spans_cover_document (text : List Char) (max_chars : Int) (overlap : Nat)
    (h : 1 ≤ max_chars) :
    ∃ spans segs,
      chunkSpans text max_chars = some spans ∧
      chunk_text text max_chars overlap = some segs ∧
      contiguousFrom text.length 0 spans = true ∧
      (spans.map fun ab => pySlice text ab.1 ab.2).flatten = text ∧
      ((text.length : Int) ≤ max_chars ∨
        segs.map Segment.text = spans.map fun ab => pyStrip (pySlice text ab.1 ab.2)) := by
  unfold chunkSpans chunk_text
  have hne1 : ¬ max_chars = -1 := by omega
  rw [if_neg hne1, if_neg hne1]
  by_cases hlen : (text.length : Int) ≤ max_chars
  · rw [if_pos hlen, if_pos hlen]
    refine ⟨[(0, text.length)], [⟨text, [], true⟩], rfl, rfl, ?_, ?_, Or.inl hlen⟩
    · simp [contiguousFrom]
    · simp [pySlice]
  · rw [if_neg hlen, if_neg hlen]
    have hmc : 1 ≤ max_chars.toNat := by omega
    obtain ⟨sp, hsp, hcont, hstrict, hflat⟩ :=
      spanLoop_spec text max_chars.toNat hmc text.length 0 (by omega) (by omega)
    refine ⟨sp, buildSegs text overlap [] sp, hsp, ?_, hcont, by simpa using hflat, Or.inr ?_⟩
    · rw [chunkLoop_eq_spanLoop, hsp]; rfl
    · exact buildSegs_map_text text overlap sp []

/-- Witness for `c2_spans_cover_document` at a concrete document. -/
theorem c2_spans_cover_document_witness :
    ∃ spans segs,
      chunkSpans "Sentence one. Sentence two. Sentence three.".toList 20 = some spans ∧
      chunk_text "Sentence one. Sentence two. Sentence three.".toList 20 5 = some segs ∧
      contiguousFrom "Sentence one. Sentence two. Sentence three.".toList.length 0 spans = true ∧
      (spans.map fun ab =>
        pySlice "Sentence one. Sentence two. Sentence three.".toList ab.1 ab.2).flatten =
        "Sentence one. Sentence two. Sentence three.".toList ∧
      (("Sentence one. Sentence two. Sentence three.".toList.length : Int) ≤ 20 ∨
        segs.map Segment.text = spans.map fun ab =>
          pyStrip (pySlice "Sentence one. Sentence two. Sentence three.".toList ab.1 ab.2)) :=
  c2_spans_cover_document _ 20 5 (by decide)

/-- **C3**: for every document and `maxChars ≥ 1` the chunker terminates:
`chunk_text` already returns a result with fuel `text.length` (so the loop
makes at most `len(text)` iterations), the chosen cut strictly exceeds
`position` whenever `position < len(text)`, and every span the loop emits
ends strictly after it starts. -/
theorem c3_chunker_terminates (text : List Char) (max_chars : Int) (overlap : Nat)
    (h : 1 ≤ max_chars) :
    (chunk_text text max_chars overlap).isSome = true ∧
    (∀ position, position < text.length →
      position < chooseChunkEnd text max_chars.toNat position) ∧
    (∀ spans, spanLoop text max_chars.toNat text.length 0 = some spans →
      spansStrict spans = true) := by
  have hmc : 1 ≤ max_chars.toNat := by omega
  refine ⟨?_, ?_, ?_⟩
  · obtain ⟨segs, hs⟩ := chunk_text_isSome text max_chars overlap (Or.inr h)
    rw [hs]; rfl
  · intro position hpos
    exact (chooseChunkEnd_bounds hpos hmc).1
  · intro spans hsp
    obtain ⟨sp, hsp2, -, hstrict, -⟩ :=
      spanLoop_spec text max_chars.toNat hmc text.length 0 (by omega) (by omega)
    rw [hsp] at hsp2
    injection hsp2 with h2
    rw [h2]
    exact hstrict

/-- Witness for `c3_chunker_terminates` at a concrete document. -/
theorem c3_chunker_terminates_witness :
    (chunk_text "Sentence one. Sentence two. Sentence three.".toList 20 300).isSome = true ∧
    (∀ position, position < "Sentence one. Sentence two. Sentence three.".toList.length →
      position < chooseChunkEnd "Sentence one. Sentence two. Sentence three.".toList
        (20 : Int).toNat position) ∧
    (∀ spans, spanLoop "Sentence one. Sentence two. Sentence three.".toList (20 : Int).toNat
        "Sentence one. Sentence two. Sentence three.".toList.length 0 = some spans →
      spansStrict spans = true) :=
  c3_chunker_terminates _ 20 300 (by decide)

/-- **C8**: with the whole-file sentinel `-1`, or whenever the document is no
longer than `maxChars` (including the empty document), `chunk_text` returns
exactly one segment: the whole (untrimmed, hence "possibly trimmed" in the
degenerate sense) document, marked first, with empty preceding context. -/
theorem c8_single_segment (text : List Char) (max_chars : Int) (overlap : Nat)
    (h : max_chars = -1 ∨ (text.length : Int) ≤ max_chars) :
    chunk_text text max_chars overlap = some [⟨text, [], true⟩] := by
  unfold chunk_text
  rcases h with rfl | h
  · rw [if_pos rfl]
  · by_cases hm : max_chars = -1
    · rw [if_pos hm]
    · rw [if_neg hm, if_pos h]

/-- Witness for `c8_single_segment`: a short document, the empty document,
and the whole-file sentinel. -/
theorem c8_single_segment_witness :
    chunk_text "short text".toList 100 30 = some [⟨"short text".toList, [], true⟩] ∧
    chunk_text [] 5 3 = some [⟨[], [], true⟩] ∧
    chunk_text "abc".toList (-1) 0 = some [⟨"abc".toList, [], true⟩] :=
  ⟨c8_single_segment _ 100 30 (Or.inr (by decide)),
   c8_single_segment [] 5 3 (Or.inr (by decide)),
   c8_single_segment _ (-1) 0 (Or.inl rfl)⟩

/-- **C1** (the code contradicts the claim): concrete evaluation of
`chunk_text` with `overlap = 0` on a four-chunk document.  Line 78 computes
`chunk_text[-context_size:]`, and Python's `-0 == 0` makes that slice the
*whole* trimmed chunk when `context_size = 0`; so every non-first segment's
`precedingContext` is the entire previous trimmed chunk — not the empty
string, and not within the claimed bound `min(overlap, len(previous))`. -/
theorem c1_overlap_zero_failing_eval :
    chunk_text "Hello. World. Goodbye friends.".toList 8 0 =
      some [⟨"Hello.".toList, [], true⟩,
            ⟨"World.".toList, "Hello.".toList, false⟩,
            ⟨"Goodbye".toList, "World.".toList, false⟩,
            ⟨"friends.".toList, "Goodbye".toList, false⟩] ∧
    (chunk_text "Hello. World. Goodbye friends.".toList 8 0).map (overlapBoundOk 0) ≠
      some true := by
  decide

/-- **C6 (counterexample)**: on the document `"ab.» cd. efghij"` with
`maxChars = 3` at position `0`, the naive cut is `3`; the window holds the
candidates `9` (from the plain regex) and `5` (from the quote regex), both
exceeding the naive cut, so the claim requires the earliest candidate `5`;
the code instead picks `sentence_breaks[0] = 9`, the first plain-regex
match, because the plain-regex matches are collected before the quote-regex
matches. -/
theorem c6_counterexample :
    sentenceCands "ab.» cd. efghij".toList 0 3 = [9, 5] ∧
    (∀ c ∈ sentenceCands "ab.» cd. efghij".toList 0 3, 3 < c) ∧
    (∀ c ∈ sentenceCands "ab.» cd. efghij".toList 0 3, 5 ≤ c) ∧
    chooseChunkEnd "ab.» cd. efghij".toList 3 0 = 9 := by
  decide

/-- **C6 (amended)**: when the naive cut `min(position + maxChars, len)`
falls short of the end of the document and the window search collects at
least one sentence-boundary candidate, the chosen cut is always one of the
collected candidates; if some candidate does not exceed the naive cut, the
chosen cut is the latest such candidate; if every candidate exceeds the
naive cut, the chosen cut is the first candidate in the order the code
collects them (all plain punctuation-then-whitespace match ends in text
order, then all punctuation-quote-whitespace match ends). -/
theorem c6_boundary_selection (text : List Char) (max_chars : Int) (position : Nat)
    (hmc : 1 ≤ max_chars) (hpos : position < text.length)
    (hcut : min (position + max_chars.toNat) text.length < text.length)
    (hne : sentenceCands text position (min (position + max_chars.toNat) text.length) ≠ []) :
    chooseChunkEnd text max_chars.toNat position ∈
      sentenceCands text position (min (position + max_chars.toNat) text.length) ∧
    ((∃ c ∈ sentenceCands text position (min (position + max_chars.toNat) text.length),
        c ≤ min (position + max_chars.toNat) text.length) →
      chooseChunkEnd text max_chars.toNat position ≤
          min (position + max_chars.toNat) text.length ∧
        ∀ c ∈ sentenceCands text position (min (position + max_chars.toNat) text.length),
          c ≤ min (position + max_chars.toNat) text.length →
            c ≤ chooseChunkEnd text max_chars.toNat position) ∧
    ((∀ c ∈ sentenceCands text position (min (position + max_chars.toNat) text.length),
        min (position + max_chars.toNat) text.length < c) →
      chooseChunkEnd text max_chars.toNat position =
        (sentenceCands text position
          (min (position + max_chars.toNat) text.length)).headD 0) := by
  have hch : chooseChunkEnd text max_chars.toNat position =
      adjustChunkEnd text position (min (position + max_chars.toNat) text.length) := by
    simp only [chooseChunkEnd]
    rw [if_pos hcut]
  cases hc : sentenceCands text position (min (position + max_chars.toNat) text.length) with
  | nil => exact absurd hc hne
  | cons b bs =>
    have hadj : adjustChunkEnd text position (min (position + max_chars.toNat) text.length) =
        bestBreak (min (position + max_chars.toNat) text.length) (b :: bs) := by
      unfold adjustChunkEnd
      rw [hc]
    obtain ⟨h1, h2, h3⟩ := bestBreak_spec (min (position + max_chars.toNat) text.length) b bs
    rw [hch, hadj]
    exact ⟨h1, h2, fun hx => by rw [h3 hx]; rfl⟩

/-- Witness for `c6_boundary_selection` at a concrete document where the
window holds candidates on both sides of the naive cut. -/
theorem c6_boundary_selection_witness :
    chooseChunkEnd "One. Two. Three.".toList (6 : Int).toNat 0 ∈
      sentenceCands "One. Two. Three.".toList 0
        (min (0 + (6 : Int).toNat) "One. Two. Three.".toList.length) ∧
    ((∃ c ∈ sentenceCands "One. Two. Three.".toList 0
        (min (0 + (6 : Int).toNat) "One. Two. Three.".toList.length),
        c ≤ min (0 + (6 : Int).toNat) "One. Two. Three.".toList.length) →
      chooseChunkEnd "One. Two. Three.".toList (6 : Int).toNat 0 ≤
          min (0 + (6 : Int).toNat) "One. Two. Three.".toList.length ∧
        ∀ c ∈ sentenceCands "One. Two. Three.".toList 0
          (min (0 + (6 : Int).toNat) "One. Two. Three.".toList.length),
          c ≤ min (0 + (6 : Int).toNat) "One. Two. Three.".toList.length →
            c ≤ chooseChunkEnd "One. Two. Three.".toList (6 : Int).toNat 0) ∧
    ((∀ c ∈ sentenceCands "One. Two. Three.".toList 0
        (min (0 + (6 : Int).toNat) "One. Two. Three.".toList.length),
        min (0 + (6 : Int).toNat) "One. Two. Three.".toList.length < c) →
      chooseChunkEnd "One. Two. Three.".toList (6 : Int).toNat 0 =
        (sentenceCands "One. Two. Three.".toList 0
          (min (0 + (6 : Int).toNat) "One. Two. Three.".toList.length)).headD 0) :=
  c6_boundary_selection "One. Two. Three.".toList 6 0 (by decide) (by decide)
    (by decide) (by decide)

/-! ## Stripping: idempotence and edge characters -/

theorem dropWhile_head_false {p : Char → Bool} :
    ∀ {l t : List Char} {c : Char}, l.dropWhile p = c :: t → p c = false := by
  intro l
  induction l with
  | nil => intro t c h; simp at h
  | cons a l ih =>
    intro t c h
    rw [List.dropWhile_cons] at h
    by_cases hp : p a = true
    · rw [if_pos hp] at h; exact ih h
    · rw [if_neg hp] at h
      cases h
      simpa using hp

theorem dropWhile_idem (p : Char → Bool) (l : List Char) :
    (l.dropWhile p).dropWhile p = l.dropWhile p := by
  cases h : l.dropWhile p with
  | nil => simp
  | cons c t =>
    have hc : p c = false := dropWhile_head_false h
    rw [List.dropWhile_cons, hc]
    simp

theorem pyRstrip_idem (s : List Char) : pyRstrip (pyRstrip s) = pyRstrip s := by
  unfold pyRstrip
  rw [List.reverse_reverse, dropWhile_idem]

theorem pyRstrip_prefix (s : List Char) : pyRstrip s <+: s := by
  rw [← List.reverse_suffix]
  unfold pyRstrip
  rw [List.reverse_reverse]
  exact List.dropWhile_suffix _

theorem pyLstrip_suffix (s : List Char) : pyLstrip s <:+ s :=
  List.dropWhile_suffix _

theorem pyStrip_idem (s : List Char) : pyStrip (pyStrip s) = pyStrip s := by
  unfold pyStrip
  have h1 : pyLstrip (pyRstrip (pyLstrip s)) = pyRstrip (pyLstrip s) := by
    cases h : pyRstrip (pyLstrip s) with
    | nil => rfl
    | cons c t =>
      have hpre : pyRstrip (pyLstrip s) <+: pyLstrip s := pyRstrip_prefix _
      rw [h] at hpre
      obtain ⟨w, hw⟩ := hpre
      have hc : isPySpace c = false := by
        refine @dropWhile_head_false isPySpace s (t ++ w) c ?_
        rw [show s.dropWhile isPySpace = pyLstrip s from rfl, ← hw]
        simp
      unfold pyLstrip
      rw [List.dropWhile_cons, hc]
      simp
  rw [h1, pyRstrip_idem]

theorem pyRstrip_getLast_false {s : List Char} {c : Char}
    (h : (pyRstrip s).getLast? = some c) : isPySpace c = false := by
  rw [List.getLast?_eq_head?_reverse] at h
  unfold pyRstrip at h
  rw [List.reverse_reverse] at h
  cases hd : s.reverse.dropWhile isPySpace with
  | nil => rw [hd] at h; simp at h
  | cons x t =>
    rw [hd] at h
    simp only [List.head?_cons, Option.some.injEq] at h
    rw [← h]
    exact dropWhile_head_false hd

theorem pyStrip_getLast_false {s : List Char} {c : Char}
    (h : (pyStrip s).getLast? = some c) : isPySpace c = false :=
  @pyRstrip_getLast_false (pyLstrip s) c h

/-! ## `hasNN` under append and stripping -/

theorem hasNN_append_right {b : List Char} :
    ∀ {a : List Char}, hasNN (a ++ b) = false → hasNN b = false := by
  intro a
  induction a with
  | nil => intro h; simpa using h
  | cons c a ih =>
    intro h
    apply ih
    cases hab : a ++ b with
    | nil => rfl
    | cons d r =>
      rw [List.cons_append, hab] at h
      simp only [hasNN, Bool.or_eq_false_iff] at h
      exact h.2

theorem hasNN_append_left {b : List Char} :
    ∀ {a : List Char}, hasNN (a ++ b) = false → hasNN a = false := by
  intro a
  induction a with
  | nil => intro _; rfl
  | cons c a ih =>
    intro h
    cases a with
    | nil => rfl
    | cons d a2 =>
      rw [List.cons_append, List.cons_append] at h
      simp only [hasNN, Bool.or_eq_false_iff] at h ⊢
      refine ⟨h.1, ?_⟩
      exact ih (by rw [List.cons_append]; exact h.2)

theorem hasNN_pyStrip {p : List Char} (h : hasNN p = false) :
    hasNN (pyStrip p) = false := by
  have h1 : hasNN (pyLstrip p) = false := by
    obtain ⟨w, hw⟩ := pyLstrip_suffix p
    exact hasNN_append_right (by rw [hw]; exact h)
  obtain ⟨w, hw⟩ := pyRstrip_prefix (pyLstrip p)
  exact @hasNN_append_left w (pyStrip p) (by
    rw [show pyStrip p = pyRstrip (pyLstrip p) from rfl, hw]
    exact h1)

/-! ## `splitOnNN`: pieces, round trip, and reassembly -/

theorem splitOnNN_ne_nil (l : List Char) : splitOnNN l ≠ [] := by
  induction l using splitOnNN.induct with
  | case1 => simp [splitOnNN]
  | case2 c => simp [splitOnNN]
  | case3 c d rest h ih => simp [splitOnNN, if_pos h]
  | case4 c d rest h p ps hps ih =>
    simp only [splitOnNN, if_neg h]
    rw [hps]
    simp
  | case5 c d rest h hps ih => exact absurd hps ih

theorem splitOnNN_head_piece :
    ∀ {l p : List Char} {ps : List (List Char)},
      splitOnNN l = p :: ps → p = [] ∨ p.head? = l.head? := by
  intro l
  induction l using splitOnNN.induct with
  | case1 =>
    intro p ps h
    simp only [splitOnNN] at h
    cases h
    exact Or.inl rfl
  | case2 c =>
    intro p ps h
    simp only [splitOnNN] at h
    cases h
    exact Or.inr rfl
  | case3 c d rest hcd ih =>
    intro p ps h
    simp only [splitOnNN, if_pos hcd] at h
    cases h
    exact Or.inl rfl
  | case4 c d rest hcd p0 ps0 hps ih =>
    intro p ps h
    simp only [splitOnNN, if_neg hcd] at h
    rw [hps] at h
    cases h
    exact Or.inr rfl
  | case5 c d rest hcd hps ih => exact absurd hps (splitOnNN_ne_nil (d :: rest))

theorem splitOnNN_no_hasNN (l : List Char) : ∀ p ∈ splitOnNN l, hasNN p = false := by
  induction l using splitOnNN.induct with
  | case1 =>
    intro p hp
    simp only [splitOnNN, List.mem_singleton] at hp
    subst hp; rfl
  | case2 c =>
    intro p hp
    simp only [splitOnNN, List.mem_singleton] at hp
    subst hp; rfl
  | case3 c d rest hcd ih =>
    intro p hp
    simp only [splitOnNN, if_pos hcd, List.mem_cons] at hp
    rcases hp with rfl | hp
    · rfl
    · exact ih p hp
  | case4 c d rest hcd p0 ps0 hps ih =>
    intro p hp
    simp only [splitOnNN, if_neg hcd] at hp
    rw [hps] at hp
    simp only [List.mem_cons] at hp
    rcases hp with rfl | hp
    · have hp0 : hasNN p0 = false := ih p0 (by rw [hps]; simp)
      cases hd0 : p0 with
      | nil => rfl
      | cons e p1 =>
        rcases splitOnNN_head_piece hps with he | he
        · rw [he] at hd0; cases hd0
        · rw [hd0] at he hp0
          simp only [List.head?_cons, Option.some.injEq] at he
          subst he
          simp only [hasNN, Bool.or_eq_false_iff]
          refine ⟨?_, hp0⟩
          by_cases hc : c = '\n'
          · have he2 : ¬ e = '\n' := fun h2 => hcd ⟨hc, h2⟩
            simp [he2]
          · simp [hc]
    · exact ih p (by rw [hps]; simp [hp])
  | case5 c d rest hcd hps ih => exact absurd hps (splitOnNN_ne_nil (d :: rest))

theorem intercalate_cons₂ (sep x y : List Char) (ys : List (List Char)) :
    List.intercalate sep (x :: y :: ys) = x ++ sep ++ List.intercalate sep (y :: ys) := by
  simp [List.intercalate, List.intersperse, List.append_assoc]

theorem intercalate_splitOnNN (l : List Char) :
    List.intercalate ['\n', '\n'] (splitOnNN l) = l := by
  induction l using splitOnNN.induct with
  | case1 => rfl
  | case2 c => rfl
  | case3 c d rest hcd ih =>
    simp only [splitOnNN, if_pos hcd]
    obtain ⟨rfl, rfl⟩ := hcd
    cases hs : splitOnNN rest with
    | nil => exact absurd hs (splitOnNN_ne_nil rest)
    | cons q qs =>
      rw [hs] at ih
      rw [intercalate_cons₂, ih]
      rfl
  | case4 c d rest hcd p0 ps0 hps ih =>
    simp only [splitOnNN, if_neg hcd]
    rw [hps]
    rw [hps] at ih
    cases ps0 with
    | nil =>
      simp only [List.intercalate, List.intersperse, List.flatten] at ih ⊢
      simp only [List.append_nil] at ih ⊢
      rw [ih]
    | cons q qs =>
      rw [intercalate_cons₂] at ih ⊢
      rw [List.cons_append, List.cons_append, ih]
  | case5 c d rest hcd hps ih => exact absurd hps (splitOnNN_ne_nil (d :: rest))

theorem splitOnNN_of_no_nn {x : List Char} (h : hasNN x = false) : splitOnNN x = [x] := by
  induction x using splitOnNN.induct with
  | case1 => rfl
  | case2 c => rfl
  | case3 c d rest hcd ih =>
    exfalso
    obtain ⟨rfl, rfl⟩ := hcd
    simp [hasNN] at h
  | case4 c d rest hcd p0 ps0 hps ih =>
    have h2 : hasNN (d :: rest) = false := by
      simp only [hasNN, Bool.or_eq_false_iff] at h
      exact h.2
    simp only [splitOnNN, if_neg hcd]
    rw [ih h2]
  | case5 c d rest hcd hps ih => exact absurd hps (splitOnNN_ne_nil (d :: rest))

theorem splitOnNN_cons₂ (c d : Char) (rest : List Char) :
    splitOnNN (c :: d :: rest) =
      if c = '\n' ∧ d = '\n' then [] :: splitOnNN rest
      else
        match splitOnNN (d :: rest) with
        | p :: ps => (c :: p) :: ps
        | [] => [[c]] := by
  rfl

theorem splitOnNN_append_sep {t : List Char} :
    ∀ {x : List Char}, x ≠ [] → hasNN x = false → x.getLast? ≠ some '\n' →
      splitOnNN (x ++ '\n' :: '\n' :: t) = x :: splitOnNN t := by
  intro x
  induction x with
  | nil => intro h; exact absurd rfl h
  | cons c x ih =>
    intro _ hnn hlast
    cases x with
    | nil =>
      have hc : ¬(c = '\n' ∧ '\n' = '\n') := by
        rintro ⟨rfl, -⟩
        exact hlast rfl
      have hin : splitOnNN ('\n' :: '\n' :: t) = [] :: splitOnNN t := by
        rw [splitOnNN_cons₂, if_pos ⟨rfl, rfl⟩]
      show splitOnNN (c :: '\n' :: '\n' :: t) = [c] :: splitOnNN t
      rw [splitOnNN_cons₂, if_neg hc, hin]
    | cons d x2 =>
      have hcd : ¬(c = '\n' ∧ d = '\n') := by
        rintro ⟨rfl, rfl⟩
        simp [hasNN] at hnn
      have hnn2 : hasNN (d :: x2) = false := by
        simp only [hasNN, Bool.or_eq_false_iff] at hnn
        exact hnn.2
      have hlast2 : (d :: x2).getLast? ≠ some '\n' := by
        rwa [List.getLast?_cons_cons] at hlast
      have ihx := ih (by simp) hnn2 hlast2
      rw [List.cons_append] at ihx
      show splitOnNN (c :: ((d :: x2) ++ '\n' :: '\n' :: t)) = (c :: d :: x2) :: splitOnNN t
      rw [List.cons_append, splitOnNN_cons₂, if_neg hcd, ihx]

theorem splitOnNN_intercalate :
    ∀ {pieces : List (List Char)}, pieces ≠ [] →
      (∀ x ∈ pieces, x ≠ [] ∧ hasNN x = false ∧ x.getLast? ≠ some '\n') →
      splitOnNN (List.intercalate ['\n', '\n'] pieces) = pieces := by
  intro pieces
  induction pieces with
  | nil => intro h; exact absurd rfl h
  | cons x ps ih =>
    intro _ hall
    cases ps with
    | nil =>
      obtain ⟨-, hnn, -⟩ := hall x (by simp)
      have h1 : List.intercalate ['\n', '\n'] [x] = x := by
        simp [List.intercalate, List.intersperse]
      rw [h1]
      exact splitOnNN_of_no_nn hnn
    | cons y ys =>
      obtain ⟨hne, hnn, hlast⟩ := hall x (by simp)
      rw [intercalate_cons₂, List.append_assoc]
      rw [show ['\n', '\n'] ++ List.intercalate ['\n', '\n'] (y :: ys) =
        '\n' :: '\n' :: List.intercalate ['\n', '\n'] (y :: ys) from rfl]
      rw [splitOnNN_append_sep hne hnn hlast]
      rw [ih (by simp) (fun z hz => hall z (by simp [hz]))]

/-! ## The deduplication fold -/

theorem dedupLoop_fixed :
    ∀ (l seen : List (List Char)),
      (∀ p ∈ l, pyStrip p = p ∧ p ≠ []) →
      (l.map normalizePara).Nodup →
      (∀ p ∈ l, normalizePara p ∉ seen) →
      dedupLoop seen l = l := by
  intro l
  induction l with
  | nil => intro seen _ _ _; rfl
  | cons para rest ih =>
    intro seen hsp hnd hns
    obtain ⟨hstrip, hne⟩ := hsp para (by simp)
    simp only [dedupLoop]
    rw [hstrip, if_neg hne, if_neg (hns para (by simp))]
    rw [List.map_cons, List.nodup_cons] at hnd
    congr 1
    apply ih
    · intro p hp; exact hsp p (by simp [hp])
    · exact hnd.2
    · intro p hp
      simp only [List.mem_cons]
      push_neg
      constructor
      · intro heq
        exact hnd.1 (heq ▸ List.mem_map_of_mem normalizePara hp)
      · exact hns p (by simp [hp])

theorem dedupLoop_sound :
    ∀ (l seen : List (List Char)),
      (∀ q ∈ dedupLoop seen l,
        (∃ p ∈ l, q = pyStrip p) ∧ q ≠ [] ∧ normalizePara q ∉ seen) ∧
      ((dedupLoop seen l).map normalizePara).Nodup := by
  intro l
  induction l with
  | nil =>
    intro seen
    constructor
    · intro q hq; simp [dedupLoop] at hq
    · simp [dedupLoop]
  | cons para rest ih =>
    intro seen
    simp only [dedupLoop]
    by_cases h1 : pyStrip para = []
    · rw [if_pos h1]
      obtain ⟨ha, hb⟩ := ih seen
      refine ⟨?_, hb⟩
      intro q hq
      obtain ⟨⟨p, hp, rfl⟩, h3, h4⟩ := ha q hq
      exact ⟨⟨p, by simp [hp], rfl⟩, h3, h4⟩
    · rw [if_neg h1]
      by_cases h2 : normalizePara (pyStrip para) ∈ seen
      · rw [if_pos h2]
        obtain ⟨ha, hb⟩ := ih seen
        refine ⟨?_, hb⟩
        intro q hq
        obtain ⟨⟨p, hp, rfl⟩, h3, h4⟩ := ha q hq
        exact ⟨⟨p, by simp [hp], rfl⟩, h3, h4⟩
      · rw [if_neg h2]
        obtain ⟨ha, hb⟩ := ih (normalizePara (pyStrip para) :: seen)
        constructor
        · intro q hq
          rcases List.mem_cons.mp hq with rfl | hq2
          · exact ⟨⟨para, by simp, rfl⟩, h1, h2⟩
          · obtain ⟨⟨p, hp, rfl⟩, h3, h4⟩ := ha q hq2
            refine ⟨⟨p, by simp [hp], rfl⟩, h3, ?_⟩
            intro hmem
            exact h4 (List.mem_cons_of_mem _ hmem)
        · simp only [List.map_cons]
          rw [List.nodup_cons]
          constructor
          · intro hmem
            obtain ⟨q, hq, heq⟩ := List.mem_map.mp hmem
            obtain ⟨-, -, h4⟩ := ha q hq
            exact h4 (heq ▸ List.mem_cons_self _ _)
          · exact hb

/-- All blank-line-separated paragraphs of `text` are nonempty, already
free of leading/trailing whitespace, and pairwise distinct in normalised
form. -/
def goodParagraphs (text : List Char) : Bool :=
  (splitOnNN text).all (fun p => decide (pyStrip p = p) && !p.isEmpty) &&
  decide (((splitOnNN text).map normalizePara).Nodup)

theorem dedup_unchanged_of_good {text : List Char} (h : goodParagraphs text = true) :
    deduplicate_paragraphs text = text := by
  unfold goodParagraphs at h
  simp only [Bool.and_eq_true, List.all_eq_true, decide_eq_true_eq,
    Bool.not_eq_true', List.isEmpty_eq_false] at h
  obtain ⟨h1, h2⟩ := h
  unfold deduplicate_paragraphs
  rw [dedupLoop_fixed (splitOnNN text) [] ?_ h2 (by intro p _; simp)]
  · exact intercalate_splitOnNN text
  · intro p hp
    obtain ⟨hs, hne⟩ := h1 p hp
    exact ⟨hs, hne⟩

theorem dedup_idem (text : List Char) :
    deduplicate_paragraphs (deduplicate_paragraphs text) = deduplicate_paragraphs text := by
  obtain ⟨hprops, hnd⟩ := dedupLoop_sound (splitOnNN text) []
  have hdt : deduplicate_paragraphs text =
      List.intercalate ['\n', '\n'] (dedupLoop [] (splitOnNN text)) := rfl
  rw [hdt]
  generalize hout : dedupLoop [] (splitOnNN text) = out at hprops hnd
  cases out with
  | nil => rfl
  | cons x xs =>
    have hpieces : ∀ z ∈ x :: xs, z ≠ [] ∧ hasNN z = false ∧ z.getLast? ≠ some '\n' := by
      intro z hz
      obtain ⟨⟨p, hp, rfl⟩, hne, -⟩ := hprops z hz
      refine ⟨hne, hasNN_pyStrip (splitOnNN_no_hasNN text p hp), ?_⟩
      intro hlast
      have hsp := pyStrip_getLast_false hlast
      simp [isPySpace] at hsp
    have hsplit : splitOnNN (List.intercalate ['\n', '\n'] (x :: xs)) = x :: xs :=
      splitOnNN_intercalate (by simp) hpieces
    unfold deduplicate_paragraphs
    rw [hsplit]
    rw [dedupLoop_fixed (x :: xs) [] ?_ hnd (by intro p _; simp)]
    intro p hp
    obtain ⟨⟨q, hq, rfl⟩, hne, -⟩ := hprops p hp
    exact ⟨pyStrip_idem q, hne⟩

/-! ## Claim theorems for deduplication -/

/-- **C7 (counterexample)**: the text `" a"` has a single paragraph — so no
two of its paragraphs share a normalised form — yet `deduplicate_paragraphs`
returns the stripped `"a"`, not the text unchanged. -/
theorem c7_counterexample :
    ((splitOnNN " a".toList).map normalizePara).Nodup ∧
    deduplicate_paragraphs " a".toList = "a".toList ∧
    deduplicate_paragraphs " a".toList ≠ " a".toList := by
  refine ⟨?_, ?_, ?_⟩ <;> decide

/-- **C7 (amended)**: `deduplicate_paragraphs` is idempotent; and any text
whose blank-line-separated paragraphs are each nonempty, free of
leading/trailing whitespace, and pairwise distinct in normalised
(lower-cased, whitespace-collapsed) form is returned unchanged. -/
theorem c7_dedup_idempotent :
    (∀ text : List Char,
      deduplicate_paragraphs (deduplicate_paragraphs text) = deduplicate_paragraphs text) ∧
    (∀ text : List Char, goodParagraphs text = true → deduplicate_paragraphs text = text) :=
  ⟨dedup_idem, fun _ h => dedup_unchanged_of_good h⟩

/-- Witness for `c7_dedup_idempotent` at concrete texts. -/
theorem c7_dedup_idempotent_witness :
    deduplicate_paragraphs (deduplicate_paragraphs "A.\n\n\nB.\n\nA.".toList) =
      deduplicate_paragraphs "A.\n\n\nB.\n\nA.".toList ∧
    goodParagraphs "Alpha\n\nBeta".toList = true ∧
    deduplicate_paragraphs "Alpha\n\nBeta".toList = "Alpha\n\nBeta".toList :=
  ⟨c7_dedup_idempotent.1 _, by decide, c7_dedup_idempotent.2 _ (by decide)⟩

/-! ## Claim theorems for the gateway, the stage executor and the pipeline -/

/-- **C9**: for every input and every modeled outcome of the generation call
— success in any response shape, including the `dict` shapes whose
interpretation raises the internal parse error, as well as every failure
kind — the try/except chain of `process_with_llm` ends in `.ok`: some
handler catches the exception and produces a string, so the
exception-escapes branch of `process_with_llm` is unreachable and the
function always returns a string to its caller. -/
theorem c9_no_exception_escapes (text system_prompt user_prompt model : List Char)
    (outcome : GenOutcome) :
    ∃ r : LlmResult,
      tryExcept text system_prompt user_prompt model outcome = .ok r ∧
      process_with_llm text system_prompt user_prompt model outcome = r := by
  cases outcome with
  | success resp =>
    cases resp with
    | dictResp m =>
      match m with
      | none => exact ⟨_, rfl, rfl⟩
      | some none => exact ⟨_, rfl, rfl⟩
      | some (some content) => exact ⟨_, rfl, rfl⟩
    | objResp m => cases m <;> exact ⟨_, rfl, rfl⟩
    | otherResp s => exact ⟨_, rfl, rfl⟩
  | timeoutErr => exact ⟨_, rfl, rfl⟩
  | connectionErr m => exact ⟨_, rfl, rfl⟩
  | serviceErr e => exact ⟨_, rfl, rfl⟩
  | otherErr n m => exact ⟨_, rfl, rfl⟩

theorem transLoop_always_running (s : TransSettings) (oracle : Nat → GenOutcome)
    (total : Nat) :
    ∀ (chunks : List Segment) (i ctr : Nat) (acc : TransAcc),
      (transLoop s oracle (fun _ => true) total chunks i ctr acc).1.parts.length =
        acc.parts.length + chunks.length ∧
      (transLoop s oracle (fun _ => true) total chunks i ctr acc).1.prompts.length =
        acc.prompts.length + chunks.length := by
  intro chunks
  induction chunks with
  | nil => intro i ctr acc; simp [transLoop]
  | cons seg rest ih =>
    intro i ctr acc
    simp only [transLoop, if_true]
    constructor
    · rw [(ih (i+1) (ctr+1) _).1]
      simp only [List.length_append, List.length_cons, List.length_nil]
      omega
    · rw [(ih (i+1) (ctr+1) _).2]
      simp only [List.length_append, List.length_cons, List.length_nil]
      omega

/-- **C5**: each modeled generation failure makes `process_with_llm` return
the bracketed placeholder that names the failure kind and embeds the first
100 characters of the input chunk, and emit exactly one error notification;
and the chunk loop of the enclosing stage, run with the flag up, still
processes every chunk — one appended part and one issued prompt pair per
chunk — whatever the outcomes, failures included, instead of aborting. -/
theorem c5_failure_placeholder_and_continue
    (text system_prompt user_prompt model m err n msg : List Char) :
    ((process_with_llm text system_prompt user_prompt model .timeoutErr).result =
        "[TIMEOUT ERROR: ".toList ++ text.take 100 ++ "...]".toList ∧
      (process_with_llm text system_prompt user_prompt model .timeoutErr).errors.length = 1) ∧
    ((process_with_llm text system_prompt user_prompt model (.connectionErr m)).result =
        "[CONNECTION ERROR: ".toList ++ text.take 100 ++ "...]".toList ∧
      (process_with_llm text system_prompt user_prompt model
        (.connectionErr m)).errors.length = 1) ∧
    ((process_with_llm text system_prompt user_prompt model (.serviceErr err)).result =
        "[PROCESSING FAILED: ".toList ++ text.take 100 ++ "...]".toList ∧
      (process_with_llm text system_prompt user_prompt model
        (.serviceErr err)).errors.length = 1) ∧
    ((process_with_llm text system_prompt user_prompt model (.otherErr n msg)).result =
        "[ERROR: ".toList ++ text.take 100 ++ "...]".toList ∧
      (process_with_llm text system_prompt user_prompt model
        (.otherErr n msg)).errors.length = 1) ∧
    (∀ (s : TransSettings) (oracle : Nat → GenOutcome) (chunks : List Segment)
        (total i ctr : Nat) (acc : TransAcc),
      (transLoop s oracle (fun _ => true) total chunks i ctr acc).1.parts.length =
          acc.parts.length + chunks.length ∧
      (transLoop s oracle (fun _ => true) total chunks i ctr acc).1.prompts.length =
          acc.prompts.length + chunks.length) :=
  ⟨⟨rfl, rfl⟩, ⟨rfl, rfl⟩, ⟨rfl, rfl⟩, ⟨rfl, rfl⟩,
   fun s oracle chunks total i ctr acc => transLoop_always_running s oracle total chunks i ctr acc⟩

theorem transLoop_prompts_oracle_free (s : TransSettings) (o1 o2 : Nat → GenOutcome)
    (schedule : Nat → Bool) (total : Nat) :
    ∀ (chunks : List Segment) (i ctr : Nat) (acc1 acc2 : TransAcc),
      acc1.prompts = acc2.prompts →
      (transLoop s o1 schedule total chunks i ctr acc1).1.prompts =
        (transLoop s o2 schedule total chunks i ctr acc2).1.prompts := by
  intro chunks
  induction chunks with
  | nil =>
    intro i ctr acc1 acc2 h
    simpa [transLoop] using h
  | cons seg rest ih =>
    intro i ctr acc1 acc2 h
    simp only [transLoop]
    by_cases hs : schedule ctr = true
    · rw [if_pos hs, if_pos hs]
      apply ih
      simp [h]
    · rw [if_neg hs, if_neg hs]
      simpa using h

/-- **C10**: the prompt pairs `execute_translation` issues are a function of
the source document, the stage settings, the chunk index and the
cooperative-flag schedule alone: two runs that differ only in the gateway's
outputs (arbitrary outcome oracles) issue exactly the same sequence of
(system, user) prompts.  The generated output of an earlier chunk therefore
never flows into a later chunk's prompt — the continuation context is the
chunker's `precedingContext`, computed from the source text. -/
theorem c10_prompt_noninterference (s : TransSettings) (text : List Char)
    (o1 o2 : Nat → GenOutcome) (schedule : Nat → Bool) (ctr : Nat) :
    (execute_translation s o1 schedule text ctr).map (fun r => r.1.prompts) =
      (execute_translation s o2 schedule text ctr).map (fun r => r.1.prompts) := by
  unfold execute_translation
  cases h : chunk_text text s.chunk_size s.overlap with
  | none => rfl
  | some chunks =>
    dsimp only
    by_cases h0 : chunks.length = 0
    · rw [if_pos h0, if_pos h0]
    · rw [if_neg h0, if_neg h0]
      simp only [Option.map_some']
      congr 1
      exact transLoop_prompts_oracle_free s o1 o2 schedule chunks.length chunks 0 ctr
        ⟨[], [], [], [], []⟩ ⟨[], [], [], [], []⟩ rfl

/-- The empty accumulated translation deduplicates to itself. -/
theorem dedup_nil : deduplicate_paragraphs [] = [] := rfl

theorem execute_translation_cancelled (st : TransSettings)
    (oracle : Nat → GenOutcome) (schedule : Nat → Bool) (text : List Char) (ctr : Nat)
    (hmc : st.chunk_size = -1 ∨ 1 ≤ st.chunk_size)
    (hs : schedule ctr = false) :
    execute_translation st oracle schedule text ctr =
      some (⟨[], [], [], [], []⟩, ctr + 1) := by
  obtain ⟨chunks, hchunks⟩ := chunk_text_isSome text st.chunk_size st.overlap hmc
  have hne := chunk_text_ne_nil hmc hchunks
  unfold execute_translation
  rw [hchunks]
  cases chunks with
  | nil => exact absurd rfl hne
  | cons c cs =>
    dsimp only
    rw [if_neg (by simp)]
    have hloop : transLoop st oracle schedule (c :: cs).length (c :: cs) 0 ctr
        ⟨[], [], [], [], []⟩ = (⟨[], [], [], [], []⟩, ctr + 1) := by
      simp only [transLoop]
      rw [if_neg (by simp [hs])]
    rw [hloop]
    have hi : ['\n', '\n'].intercalate ([] : List (List Char)) = [] := rfl
    cases hd : st.dedup <;> simp [hd, hi, dedup_nil]

/-- **C4 (amended)**: when the running flag is cleared before any chunk of
the first stage is attempted — the stage-top check still reads `true`,
every later check reads `false` — the stage issues no generation call and
persists no progress snapshot, but the pipeline still persists exactly one
new artifact: the numbered step artifact of the interrupted stage, holding
the empty partial text.  No later stage runs, the final output is not
written, and the running flag is false after `process_pipeline` returns. -/
theorem c4_cancel_still_persists_numbered_artifact
    (st : TransSettings) (rest : List TransSettings) (text : List Char)
    (oracles : Nat → Nat → GenOutcome) (schedule : Nat → Bool)
    (hmc : st.chunk_size = -1 ∨ 1 ≤ st.chunk_size)
    (h0 : schedule 0 = true) (h1 : ∀ n, 1 ≤ n → schedule n = false) :
    process_pipeline false (.ok ()) (.ok text) (st :: rest) oracles schedule =
      some ⟨[(stepNum 1 ++ ['_'] ++ st.step_name, [])], [], [], none, false⟩ := by
  have hexec := execute_translation_cancelled st (oracles 0) schedule text 1 hmc
    (h1 1 (by omega))
  have hstage : stageLoop oracles schedule (st :: rest) 0 1 0 text ⟨[], [], []⟩ =
      some ([], ⟨[(stepNum 1 ++ ['_'] ++ st.step_name, [])], [], []⟩,
        if rest = [] then 2 else 3) := by
    simp only [stageLoop]
    rw [if_pos h0, hexec]
    dsimp only
    cases rest with
    | nil => simp [stageLoop]
    | cons st2 rest2 =>
      simp only [stageLoop]
      rw [if_neg (by simp [h1 2 (by omega)])]
      simp
  simp only [process_pipeline]
  rw [hstage]
  dsimp only
  have hsched : schedule (if rest = [] then 2 else 3) = false := by
    cases rest with
    | nil => simpa using h1 2 (by omega)
    | cons a b => simpa using h1 3 (by omega)
  simp [hsched]

/-- **C4 (counterexample)**: one translation stage over a three-chunk
document; the flag schedule reads `true` at the stage-top check (check 0)
and `false` from the first chunk check on — i.e. cancellation takes effect
before any chunk of the stage completes.  The claim says the stage then
persists no new final numbered step artifact; the run nonetheless persists
`01_translated` (with the empty partial text).  The running-flag half of the
claim does hold: the flag is false after return. -/
theorem c4_counterexample :
    process_pipeline false (.ok ()) (.ok "Hello. World. Bye.".toList)
      [{ model := "m".toList, src_lang := "English".toList, target_lang := "Czech".toList,
         chunk_size := 5, overlap := 2, dedup := true,
         prompts := ⟨[], [], [], []⟩, step_name := "translated".toList }]
      (fun _ _ => GenOutcome.timeoutErr) (fun n => n == 0) =
      some ⟨[("01_translated".toList, [])], [], [], none, false⟩ := by
  decide

/-- Witness for `c4_cancel_still_persists_numbered_artifact` at a concrete
stage, document and schedule. -/
theorem c4_cancel_witness :
    process_pipeline false (.ok ()) (.ok "Hi there. Bye now.".toList)
      [{ model := "m".toList, src_lang := "English".toList, target_lang := "Czech".toList,
         chunk_size := 6, overlap := 3, dedup := false,
         prompts := ⟨[], [], [], []⟩, step_name := "translated".toList }]
      (fun _ _ => GenOutcome.serviceErr []) (fun n => decide (n = 0)) =
      some ⟨[(stepNum 1 ++ ['_'] ++ "translated".toList, [])], [], [], none, false⟩ :=
  c4_cancel_still_persists_numbered_artifact
    { model := "m".toList, src_lang := "English".toList, target_lang := "Czech".toList,
      chunk_size := 6, overlap := 3, dedup := false,
      prompts := ⟨[], [], [], []⟩, step_name := "translated".toList }
    [] "Hi there. Bye now.".toList (fun _ _ => GenOutcome.serviceErr [])
    (fun n => decide (n = 0)) (Or.inr (by decide)) (by decide)
    (fun n hn => by simp; omega)

end OllamaBatch
